import Mathlib

/-
Verification of the espresso accumulator engine against its specification.

The repository source under `src/src/python/espressomd/accumulators.py` is a
thin Python layer (`MeanVarianceCalculator`, `TimeSeries`, `Correlator`,
`AutoUpdateAccumulators`) that binds to the `Accumulators::*` script-interface
core; the numerical algorithms themselves live in that core.  The Python layer
(shape-directed reshaping of the accessor outputs, docstring contracts on
``args``) is embedded directly; the core algorithms — Welford running moments,
the append-only time-series log, and the multiple-tau hierarchical correlator —
are modelled from the specification, as marked on each definition.  Machine
floats are modelled by exact rationals; observable vectors by `List ℚ` with the
flattened length standing for the fixed shape.
-/

namespace Espresso

/-- Error taxonomy of the engine: per-call shape rejection and premature
reads of derived statistics. -/
inductive Err
  | shapeMismatch
  | insufficientSamples
  deriving DecidableEq, Repr

/-! ## Running-moments accumulator (`Accumulators::MeanVarianceCalculator`) -/

/-- Modelled from the spec: state of the `MeanVarianceCalculator` core —
per-component running `count`, `mean` vector and `M2` vector (sum of squared
deviations from the running mean). -/
structure MVState where
  count : ℕ
  mean : List ℚ
  M2 : List ℚ
  deriving Repr

/-- Modelled from the spec: a fresh accumulator for an observable of flattened
length `d` is created empty (all-zero vectors, count 0). -/
def mvInit (d : ℕ) : MVState :=
  ⟨0, List.replicate d 0, List.replicate d 0⟩

/-- Modelled from the spec: one Welford update:
`count += 1; delta = sample - mean; mean += delta / count;
delta2 = sample - mean; M2 += delta * delta2`, elementwise. -/
def mvStep (st : MVState) (x : List ℚ) : MVState :=
  let c := st.count + 1
  let delta := List.zipWith (· - ·) x st.mean
  let mean1 := List.zipWith (fun m dl => m + dl / (c : ℚ)) st.mean delta
  let delta2 := List.zipWith (· - ·) x mean1
  ⟨c, mean1, List.zipWith (· + ·) st.M2 (List.zipWith (· * ·) delta delta2)⟩

/-- Modelled from the spec: `update` validates the sample shape against the
shape fixed at construction and rejects the call, before any mutation, with
`ShapeMismatch`. -/
def mvUpdate (d : ℕ) (st : MVState) (x : List ℚ) : Except Err MVState :=
  if x.length = d then .ok (mvStep st x) else .error .shapeMismatch

/-- A whole run of well-shaped `update` calls from the fresh accumulator. -/
def mvRun (d : ℕ) (samples : List (List ℚ)) : MVState :=
  samples.foldl mvStep (mvInit d)

/-- Modelled from the spec: the flat variance vector `M2 / (count - 1)`. -/
def varianceList (st : MVState) : List ℚ :=
  st.M2.map (fun v => v / ((st.count - 1 : ℕ) : ℚ))

/-- Modelled from the spec: `variance()` fails with `InsufficientSamples` when
`count < 2`, else returns `M2 / (count - 1)` elementwise; the read is a pure
accessor of the state. -/
def mvVariance (st : MVState) : Except Err (List ℚ) :=
  if st.count < 2 then .error .insufficientSamples else .ok (varianceList st)

/-- Modelled from the spec: `std_error() = sqrt(variance() / count)`
elementwise; the square root is abstracted as the parameter `sq`, since only
its elementwise application matters for the properties below. -/
def mvStdError (sq : ℚ → ℚ) (st : MVState) : Except Err (List ℚ) :=
  (mvVariance st).map (fun v => v.map (fun x => sq (x / (st.count : ℚ))))

/-- Reshaping of a flat core vector to the declared shape, as performed by
`np.array(...).reshape(self.shape())` in the Python layer: it succeeds exactly
when the number of entries matches the declared flattened shape. -/
def reshape (v : List ℚ) (d : ℕ) : Option (List ℚ) :=
  if v.length = d then some v else none

/-- The src `MeanVarianceCalculator.mean`: the flat core mean reshaped to
`self.shape()`. -/
def pyMean (d : ℕ) (st : MVState) : Option (List ℚ) :=
  reshape st.mean d

/-- The src `MeanVarianceCalculator.variance`: the flat core variance reshaped
to `self.shape()`. -/
def pyVariance (d : ℕ) (st : MVState) : Except Err (Option (List ℚ)) :=
  (mvVariance st).map (fun v => reshape v d)

/-- The src `MeanVarianceCalculator.std_error`: the flat core standard error
reshaped to `self.shape()`. -/
def pyStdError (sq : ℚ → ℚ) (d : ℕ) (st : MVState) : Except Err (Option (List ℚ)) :=
  (mvStdError sq st).map (fun v => reshape v d)

/-- Single-component Welford step; `mvStep` acts as this map on every
component of the vectors. -/
def wStep (st : ℕ × ℚ × ℚ) (x : ℚ) : ℕ × ℚ × ℚ :=
  let c := st.1 + 1
  let dl := x - st.2.1
  let m := st.2.1 + dl / (c : ℚ)
  (c, m, st.2.2 + dl * (x - m))

/-- Single-component Welford run from the empty state. -/
def wRun (l : List ℚ) : ℕ × ℚ × ℚ :=
  l.foldl wStep (0, 0, 0)

/-! ## Time-series recorder (`Accumulators::TimeSeries`) -/

/-- Modelled from the spec: state of the `TimeSeries` core — the
insertion-ordered log of sampled vectors plus the shape fixed at the first
update (`none` until then). -/
structure TSState where
  log : List (List ℚ)
  shp : Option ℕ
  deriving Repr

/-- The freshly constructed recorder: empty log, no shape fixed yet. -/
def tsInit : TSState := ⟨[], none⟩

/-- Modelled from the spec: `update` appends the sample to the log; the first
call fixes the shape for all subsequent calls, and a mismatching later sample
is rejected, before any mutation, with `ShapeMismatch`. -/
def tsUpdate (st : TSState) (s : List ℚ) : Except Err TSState :=
  match st.shp with
  | none => .ok ⟨st.log ++ [s], some s.length⟩
  | some d => if s.length = d then .ok ⟨st.log ++ [s], some d⟩ else .error .shapeMismatch

/-- A whole run of `update` calls on the recorder. -/
def tsRun (st : TSState) (samples : List (List ℚ)) : Except Err TSState :=
  samples.foldlM tsUpdate st

/-- Modelled from the spec: `clear()` empties the log without resetting the
fixed shape. -/
def tsClear (st : TSState) : TSState := ⟨[], st.shp⟩

/-- Modelled from the spec: `time_series()` returns the full ordered log and
does not mutate the state (it is a pure accessor). -/
def tsTimeSeries (st : TSState) : List (List ℚ) := st.log

/-! ## Multiple-tau correlator (`Accumulators::Correlator`)

The model is generic in the sample type `A` fed by the observables and the
value type `V` produced by the correlation operation, so that the structural
claims hold for every configured operation and compression pair. -/

/-- Modelled from the spec: one hierarchy level `p` of the multiple-tau
correlator — the ring buffer of the at most `tau_lin + 1` most recent
(possibly compressed) pair samples at that level, the per-lag correlation sums
and contributing-sample counters for the local lags `0 .. tau_lin - 1`, and
the one-slot pending buffer awaiting pairing for compression into level
`p + 1`. -/
structure CLevel (A V : Type) where
  buffer : List (A × A)
  sums : List V
  counts : List ℕ
  pending : Option (A × A)

/-- A level just before its first input: empty buffer, zero sums and counts,
nothing pending. -/
def emptyLevel {A V : Type} [Zero V] (tl : ℕ) : CLevel A V :=
  ⟨[], List.replicate tl 0, List.replicate tl 0, none⟩

/-- The per-lag counter update of one level: the counter of every lag `k` for
which the buffer holds a lagged entry (`k < buflen`) is incremented; `k` is
the local lag of the first list entry. -/
def bumpCounts (buflen : ℕ) : ℕ → List ℕ → List ℕ
  | _, [] => []
  | k, c :: cs => (if k < buflen then c + 1 else c) :: bumpCounts buflen (k + 1) cs

/-- The per-lag sum update of one level: the sum of every lag `k` at which the
buffer holds a lagged entry accumulates the operation applied to that entry's
A-sample and the new B-sample `bnew`; `k` is the local lag of the first list
entry. -/
def accSums {A V : Type} [Add V] (op : A → A → V) (buf : List (A × A)) (bnew : A) :
    ℕ → List V → List V
  | _, [] => []
  | k, sv :: svs =>
    (match buf[k]? with | some e => sv + op e.1 bnew | none => sv) ::
      accSums op buf bnew (k + 1) svs

/-- Modelled from the spec (update steps 1 and 2 at one level): insert the new
pair at the head of the ring buffer, evicting the oldest entry past capacity
`tau_lin + 1`; then for every relative lag `k < tau_lin` available in the
buffer, apply the operation to the lagged entry's A-sample and the new
B-sample, accumulate it into the lag's sum and bump the lag's counter. -/
def accumulate {A V : Type} [Add V] (op : A → A → V) (tl : ℕ)
    (l : CLevel A V) (s : A × A) : CLevel A V :=
  let buf := (s :: l.buffer).take (tl + 1)
  { buffer := buf
    sums := accSums op buf s.2 0 l.sums
    counts := bumpCounts buf.length 0 l.counts
    pending := l.pending }

/-- Modelled from the spec (update step 3 at one level): after accumulation,
an unpaired value waits in the pending slot; once two values have arrived
since the last compression, the chronologically ordered pair is compressed —
`cA` on stream A, `cB` on stream B — into the single sample handed to the
next level. -/
def levelStep {A V : Type} [Add V] (op : A → A → V) (cA cB : A → A → A) (tl : ℕ)
    (l : CLevel A V) (s : A × A) : CLevel A V × Option (A × A) :=
  let l1 := accumulate op tl l s
  match l.pending with
  | none => ({ l1 with pending := some s }, none)
  | some v => ({ l1 with pending := none }, some (cA v.1 s.1, cB v.2 s.2))

/-- Modelled from the spec: one full `update` through the level hierarchy.
`cap` bounds the number of levels the configuration allows (the smallest `P`
with `tau_lin * dt * 2 ^ P >= tau_max`, plus one, at construction); levels are
created on demand and the recursion is a no-op beyond the last allowed
level. -/
def updL {A V : Type} [Zero V] [Add V] (op : A → A → V) (cA cB : A → A → A)
    (tl : ℕ) : ℕ → List (CLevel A V) → A × A → List (CLevel A V)
  | 0, ls, _ => ls
  | _ + 1, [], s => [(levelStep op cA cB tl (emptyLevel tl) s).1]
  | cap + 1, l :: ls, s =>
    match levelStep op cA cB tl l s with
    | (l1, none) => l1 :: ls
    | (l1, some c) => l1 :: updL op cA cB tl cap ls c

/-- A whole run of `update` calls starting from the freshly constructed
correlator, in which no level is populated yet. -/
def runUpdates {A V : Type} [Zero V] [Add V] (op : A → A → V) (cA cB : A → A → A)
    (tl cap : ℕ) (samples : List (A × A)) : List (CLevel A V) :=
  samples.foldl (updL op cA cB tl cap) []

/-- Modelled from the spec: `finalize()` walks the hierarchy bottom-up; a
pending unpaired value at a level is compressed as though paired with itself,
so that it still contributes, and propagated upward one last time. -/
def finLevels {A V : Type} [Zero V] [Add V] (op : A → A → V) (cA cB : A → A → A)
    (tl : ℕ) : ℕ → List (CLevel A V) → List (CLevel A V)
  | 0, ls => ls
  | _ + 1, [] => []
  | cap + 1, l :: ls =>
    match l.pending with
    | none => l :: finLevels op cA cB tl cap ls
    | some v =>
      { l with pending := none } ::
        finLevels op cA cB tl cap (updL op cA cB tl cap ls (cA v.1 v.1, cB v.2 v.2))

/-- Modelled from the spec: the per-lag normalized entries of one level —
`sum / count` for each local lag, a zero-count lag producing the undefined
marker `none` instead of a crash. -/
def lagEntries {A V : Type} [Div V] [NatCast V] (l : CLevel A V) : List (Option V) :=
  List.zipWith (fun s (c : ℕ) => if c = 0 then none else some (s / (Nat.cast c : V)))
    l.sums l.counts

/-- Modelled from the spec: `result()` — level 0 contributes all of its
`tau_lin` lags; every populated level above contributes only its upper
`tau_lin - tau_lin / 2` lags, the lower ones being already covered one level
below at finer resolution. -/
def resultOf {A V : Type} [Div V] [NatCast V] (tl : ℕ) :
    List (CLevel A V) → List (Option V)
  | [] => []
  | l :: ls => lagEntries l ++ (ls.map (fun l2 => (lagEntries l2).drop (tl / 2))).flatten

/-- Modelled from the spec: `sample_sizes()` — the per-lag contributing-sample
counters, laid out lag by lag exactly like `result()`. -/
def sampleSizesOf {A V : Type} (tl : ℕ) : List (CLevel A V) → List ℕ
  | [] => []
  | l :: ls => l.counts ++ (ls.map (fun l2 => l2.counts.drop (tl / 2))).flatten

/-- Modelled from the spec: the new lag times contributed by the levels above
level 0 — level `p` adds `k * (2 ^ p * dt)` for its local lags
`tau_lin / 2 <= k < tau_lin`, continuing where level `p - 1` stopped. -/
def upperTimes (tl : ℕ) (dt : ℚ) : ℕ → ℕ → List ℚ
  | _, 0 => []
  | p, rest + 1 =>
    ((List.range tl).drop (tl / 2)).map (fun k : ℕ => (k : ℚ) * (2 ^ p * dt)) ++
      upperTimes tl dt (p + 1) rest

/-- Modelled from the spec: `lag_times()` — `tau_lin` values at spacing `dt`
for level 0, then the new values of each populated level above. -/
def lagTimesOf {A V : Type} (tl : ℕ) (dt : ℚ) : List (CLevel A V) → List ℚ
  | [] => []
  | _ :: ls => (List.range tl).map (fun k : ℕ => (k : ℚ) * dt) ++ upperTimes tl dt 1 ls.length

/-- Modelled from the spec: the correlator's `update` re-checks both sample
shapes against the shapes fixed at construction and rejects a mismatch, before
touching any level, with `ShapeMismatch`. -/
def corrUpdate {V : Type} [Zero V] [Add V] (op : List ℚ → List ℚ → V)
    (cA cB : List ℚ → List ℚ → List ℚ) (tl cap dA dB : ℕ)
    (ls : List (CLevel (List ℚ) V)) (a b : List ℚ) :
    Except Err (List (CLevel (List ℚ) V)) :=
  if a.length = dA ∧ b.length = dB then .ok (updL op cA cB tl cap ls (a, b))
  else .error .shapeMismatch

/-- The `scalar_product` correlation operation: `Σ A_i * B_i`. -/
def scalarProduct (a b : List ℚ) : ℚ :=
  (List.zipWith (· * ·) a b).sum

/-- The `discard2` compression function: keep the chronologically older value
of the pair, drop the newer one. -/
def discard2 (vold _vnew : List ℚ) : List ℚ := vold

/-- The end-to-end run of claim C1: the scalar sample sequence 1, 2, 1, 2, 1,
2 fed one sample per step as autocorrelation pairs, with `tau_lin = 2`,
`dt = 1`, `delta_N = 1`, operation `scalar_product`, `compress1 = compress2 =
discard2`; `tau_max = 4` steps allows two hierarchy levels. -/
def c1State : List (CLevel (List ℚ) ℚ) :=
  runUpdates scalarProduct discard2 discard2 2 2
    ([[1], [2], [1], [2], [1], [2]].map (fun s => (s, s)))

/-! ## `fcs_acf` construction-time argument handling -/

/-- The correlation operations accepted by the correlator. -/
inductive CorrOperation
  | scalar_product
  | componentwise_product
  | square_distance_componentwise
  | tensor_product
  | fcs_acf
  deriving DecidableEq

/-- From the src docstring of `Correlator` (accumulators.py, the `args`
parameter): the three `args` values are used only by `fcs_acf`, which
"will square these values in the core" at construction — so the stored
denominators are the squares of the constructor-supplied values, and only
values re-assigned later through `obs.args` must already be squared.  Other
operations keep `args` untouched and ignore it. -/
def correlationArgs (op : CorrOperation) (args : ℚ × ℚ × ℚ) : ℚ × ℚ × ℚ :=
  match op with
  | .fcs_acf => (args.1 * args.1, args.2.1 * args.2.1, args.2.2 * args.2.2)
  | _ => args

/-- The exponent `Σ_k (A_k - B_k)^2 / d_k` of one 3-component group of the
`fcs_acf` operation, with stored denominators `d`. -/
def fcsExponent (d a b : ℚ × ℚ × ℚ) : ℚ :=
  (a.1 - b.1) ^ 2 / d.1 + (a.2.1 - b.2.1) ^ 2 / d.2.1 + (a.2.2 - b.2.2) ^ 2 / d.2.2

/-- Modelled from the spec (level bookkeeping): after `n` updates have reached
a level, its counters read `n - k` at lag `k`, its buffer holds `min n
(tau_lin + 1)` entries, its pending slot is filled exactly when `n` is odd,
and the level above it has received `n / 2` inputs; the list of populated
levels is nonempty only while updates have reached it and is cut off at the
configured level capacity. -/
def LevelsInv {A V : Type} (tl : ℕ) : ℕ → List (CLevel A V) → ℕ → Prop
  | cap, [], n => cap = 0 ∨ n = 0
  | cap, l :: ls, n =>
    0 < cap ∧ 0 < n ∧
    l.counts = (List.range tl).map (fun k => n - k) ∧
    l.buffer.length = min n (tl + 1) ∧
    (l.pending = none ↔ n % 2 = 0) ∧
    LevelsInv tl (cap - 1) ls (n / 2)

/-! ## General list helpers -/

theorem getElem?_eq_some_getD {α : Type} (l : List α) (d0 : α) (i : ℕ)
    (h : i < l.length) : l[i]? = some (l.getD i d0) := by
  simp [List.getD_eq_getElem?_getD, List.getElem?_eq_getElem h]

theorem getD_zipWith_q (f : ℚ → ℚ → ℚ) (a b : List ℚ) (i : ℕ)
    (h1 : i < a.length) (h2 : i < b.length) :
    (List.zipWith f a b).getD i 0 = f (a.getD i 0) (b.getD i 0) := by
  have hz : i < (List.zipWith f a b).length := by
    simp [List.length_zipWith]; omega
  simp [List.getD_eq_getElem?_getD, List.getElem?_eq_getElem, h1, h2, hz,
    List.getElem_zipWith]

theorem getD_map_q (f : ℚ → ℚ) (l : List ℚ) (i : ℕ) (h : i < l.length) :
    (l.map f).getD i 0 = f (l.getD i 0) := by
  have hm : i < (l.map f).length := by simpa using h
  simp [List.getD_eq_getElem?_getD, List.getElem?_eq_getElem, h, hm]

/-! ## Welford accumulator: incremental updates match the batch formulas -/

theorem mvStep_proj (st : MVState) (x : List ℚ) (d i : ℕ)
    (hm : st.mean.length = d) (h2 : st.M2.length = d) (hx : x.length = d)
    (hi : i < d) :
    (mvStep st x).count = st.count + 1 ∧
    (mvStep st x).mean.length = d ∧ (mvStep st x).M2.length = d ∧
    (mvStep st x).mean.getD i 0 =
      (wStep (st.count, st.mean.getD i 0, st.M2.getD i 0) (x.getD i 0)).2.1 ∧
    (mvStep st x).M2.getD i 0 =
      (wStep (st.count, st.mean.getD i 0, st.M2.getD i 0) (x.getD i 0)).2.2 := by
  refine ⟨rfl, ?_, ?_, ?_, ?_⟩
  · simp [mvStep, List.length_zipWith, hm, h2, hx]
  · simp [mvStep, List.length_zipWith, hm, h2, hx]
  · have hd : i < (List.zipWith (· - ·) x st.mean).length := by
      simp [List.length_zipWith, hm, hx]; omega
    simp only [mvStep, wStep]
    rw [getD_zipWith_q _ _ _ _ (by omega) hd, getD_zipWith_q _ _ _ _ (by omega) (by omega)]
  · have hd : i < (List.zipWith (· - ·) x st.mean).length := by
      simp [List.length_zipWith, hm, hx]; omega
    have hm1 : (List.zipWith (fun m dl => m + dl / ((st.count + 1 : ℕ) : ℚ)) st.mean
        (List.zipWith (· - ·) x st.mean)).length = d := by
      simp [List.length_zipWith, hm, hx]
    have e1 : (List.zipWith (· - ·) x st.mean).getD i 0 =
        x.getD i 0 - st.mean.getD i 0 :=
      getD_zipWith_q _ _ _ _ (by omega) (by omega)
    have e2 : (List.zipWith (fun m dl => m + dl / ((st.count + 1 : ℕ) : ℚ)) st.mean
        (List.zipWith (· - ·) x st.mean)).getD i 0 =
        st.mean.getD i 0 + (x.getD i 0 - st.mean.getD i 0) / ((st.count + 1 : ℕ) : ℚ) := by
      rw [getD_zipWith_q _ _ _ _ (by omega) hd, e1]
    have e3 : (List.zipWith (· - ·) x (List.zipWith
        (fun m dl => m + dl / ((st.count + 1 : ℕ) : ℚ)) st.mean
        (List.zipWith (· - ·) x st.mean))).getD i 0 =
        x.getD i 0 - (st.mean.getD i 0 +
          (x.getD i 0 - st.mean.getD i 0) / ((st.count + 1 : ℕ) : ℚ)) := by
      rw [getD_zipWith_q _ _ _ _ (by omega) (by omega), e2]
    have hd2 : i < (List.zipWith (· - ·) x (List.zipWith
        (fun m dl => m + dl / ((st.count + 1 : ℕ) : ℚ)) st.mean
        (List.zipWith (· - ·) x st.mean))).length := by
      simp [List.length_zipWith, hm, hx]; omega
    have hmul : i < (List.zipWith (· * ·) (List.zipWith (· - ·) x st.mean)
        (List.zipWith (· - ·) x (List.zipWith
          (fun m dl => m + dl / ((st.count + 1 : ℕ) : ℚ)) st.mean
          (List.zipWith (· - ·) x st.mean)))).length := by
      simp [List.length_zipWith, hm, hx]; omega
    simp only [mvStep, wStep]
    rw [getD_zipWith_q _ _ _ _ (by omega) hmul, getD_zipWith_q _ _ _ _ hd hd2, e1, e3]

theorem mvRun_foldl_proj (d i : ℕ) (hi : i < d) :
    ∀ (samples : List (List ℚ)) (st : MVState),
      st.mean.length = d → st.M2.length = d → (∀ s ∈ samples, s.length = d) →
      (List.foldl mvStep st samples).mean.length = d ∧
      (List.foldl mvStep st samples).M2.length = d ∧
      ((List.foldl mvStep st samples).count,
        (List.foldl mvStep st samples).mean.getD i 0,
        (List.foldl mvStep st samples).M2.getD i 0) =
        List.foldl wStep (st.count, st.mean.getD i 0, st.M2.getD i 0)
          (samples.map (fun s => s.getD i 0))
  | [], st, hm, h2, _ => ⟨hm, h2, rfl⟩
  | s :: rest, st, hm, h2, hs => by
    have hsd : s.length = d := hs s (by simp)
    obtain ⟨hc, hm1, h21, hmp, h2p⟩ := mvStep_proj st s d i hm h2 hsd hi
    have ih := mvRun_foldl_proj d i hi rest (mvStep st s) hm1 h21
      (fun t ht => hs t (by simp [ht]))
    have htrip : ((mvStep st s).count, (mvStep st s).mean.getD i 0,
        (mvStep st s).M2.getD i 0) =
        wStep (st.count, st.mean.getD i 0, st.M2.getD i 0) (s.getD i 0) := by
      rw [hc, hmp, h2p]
      simp [wStep]
    refine ⟨ih.1, ih.2.1, ?_⟩
    rw [List.foldl_cons, List.map_cons, List.foldl_cons]
    exact ih.2.2.trans (by rw [htrip])

theorem wRun_spec (l : List ℚ) :
    (wRun l).1 = l.length ∧
    (wRun l).2.1 = l.sum / (l.length : ℚ) ∧
    (wRun l).2.2 = (l.map (fun x => x ^ 2)).sum - l.sum ^ 2 / (l.length : ℚ) := by
  induction l using List.reverseRecOn with
  | nil => simp [wRun, wStep]
  | append_singleton l x ih =>
    obtain ⟨hc, hm, hq⟩ := ih
    have hrep : wRun l = (l.length, l.sum / (l.length : ℚ),
        (l.map (fun x => x ^ 2)).sum - l.sum ^ 2 / (l.length : ℚ)) := by
      have heta : wRun l = ((wRun l).1, (wRun l).2.1, (wRun l).2.2) := rfl
      rw [heta, hc, hm, hq]
    have hw : wRun (l ++ [x]) = wStep (wRun l) x := by
      simp [wRun, List.foldl_append]
    rcases Nat.eq_zero_or_pos l.length with h0 | hpos
    · have hl : l = [] := List.length_eq_zero.mp h0
      subst hl
      refine ⟨?_, ?_, ?_⟩ <;> simp [wRun, wStep]
    · have hn : (l.length : ℚ) ≠ 0 := by positivity
      have hn1 : ((l.length : ℚ) + 1) ≠ 0 := by positivity
      rw [hw, hrep]
      simp only [wStep, List.length_append, List.sum_append, List.map_append,
        List.length_cons, List.length_nil, List.sum_cons, List.sum_nil, List.map_cons,
        List.map_nil]
      push_cast
      refine ⟨by ring, ?_, ?_⟩
      · field_simp
        ring
      · field_simp
        ring

theorem foldl_mvStep_count : ∀ (samples : List (List ℚ)) (st : MVState),
    (List.foldl mvStep st samples).count = st.count + samples.length
  | [], _ => rfl
  | s :: rest, st => by
    have ih := foldl_mvStep_count rest (mvStep st s)
    simp only [List.foldl_cons, ih, List.length_cons]
    simp [mvStep]
    omega

theorem foldl_mvStep_lengths (d : ℕ) : ∀ (samples : List (List ℚ)) (st : MVState),
    st.mean.length = d → st.M2.length = d → (∀ s ∈ samples, s.length = d) →
    (List.foldl mvStep st samples).mean.length = d ∧
    (List.foldl mvStep st samples).M2.length = d
  | [], _, hm, h2, _ => ⟨hm, h2⟩
  | s :: rest, st, hm, h2, hs => by
    have hsd : s.length = d := hs s (by simp)
    have hm1 : (mvStep st s).mean.length = d := by
      simp [mvStep, List.length_zipWith, hm, hsd]
    have h21 : (mvStep st s).M2.length = d := by
      simp [mvStep, List.length_zipWith, hm, h2, hsd]
    exact foldl_mvStep_lengths d rest (mvStep st s) hm1 h21
      (fun t ht => hs t (by simp [ht]))

theorem sum_sq_dev (μ : ℚ) : ∀ (l : List ℚ),
    (l.map (fun x => (x - μ) ^ 2)).sum =
      (l.map (fun x => x ^ 2)).sum - 2 * μ * l.sum + (l.length : ℚ) * μ ^ 2
  | [] => by simp
  | x :: l => by
    have ih := sum_sq_dev μ l
    simp only [List.map_cons, List.sum_cons, ih, List.length_cons]
    push_cast
    ring

/-- C2: for every finite sequence of same-shape samples fed through the
Welford update, the accumulator state reproduces the batch statistics: the
stored mean is the elementwise arithmetic mean of the sequence, and for at
least two samples the variance accessor yields the `(n-1)`-normalized sample
variance, elementwise; concretely, the scalar samples 1, 2, 3, 4 give mean
`5/2` and variance `5/3`. -/
theorem mv_welford_matches_batch (d : ℕ) (samples : List (List ℚ))
    (h : ∀ s ∈ samples, s.length = d) (i : ℕ) (hi : i < d) :
    (mvRun d samples).mean[i]? =
      some ((samples.map (fun s => s.getD i 0)).sum / (samples.length : ℚ)) ∧
    (2 ≤ samples.length →
      mvVariance (mvRun d samples) = Except.ok (varianceList (mvRun d samples)) ∧
      (varianceList (mvRun d samples))[i]? =
        some ((samples.map (fun s => (s.getD i 0 -
            (samples.map (fun t => t.getD i 0)).sum / (samples.length : ℚ)) ^ 2)).sum /
          ((samples.length : ℚ) - 1))) ∧
    (mvRun 1 [[1], [2], [3], [4]]).mean = [5 / 2] ∧
    mvVariance (mvRun 1 [[1], [2], [3], [4]]) = Except.ok [5 / 3] := by
  obtain ⟨hml, hql, hproj⟩ := mvRun_foldl_proj d i hi samples (mvInit d)
    (by simp [mvInit]) (by simp [mvInit]) h
  have hml2 : (mvRun d samples).mean.length = d := hml
  have hql2 : (mvRun d samples).M2.length = d := hql
  have hz : ((mvInit d).count, (mvInit d).mean.getD i 0, (mvInit d).M2.getD i 0)
      = ((0 : ℕ), (0 : ℚ), (0 : ℚ)) := by
    simp [mvInit, List.getD_eq_getElem?_getD, List.getElem?_replicate, hi]
  rw [hz] at hproj
  have hw : ((mvRun d samples).count, (mvRun d samples).mean.getD i 0,
      (mvRun d samples).M2.getD i 0) = wRun (samples.map (fun s => s.getD i 0)) := hproj
  have hcnt : (mvRun d samples).count = (wRun (samples.map (fun s => s.getD i 0))).1 :=
    congrArg Prod.fst hw
  have hmean : (mvRun d samples).mean.getD i 0 =
      (wRun (samples.map (fun s => s.getD i 0))).2.1 := congrArg (fun t => t.2.1) hw
  have hM2 : (mvRun d samples).M2.getD i 0 =
      (wRun (samples.map (fun s => s.getD i 0))).2.2 := congrArg (fun t => t.2.2) hw
  obtain ⟨wc, wm, wq⟩ := wRun_spec (samples.map (fun s => s.getD i 0))
  have hxlen : (samples.map (fun s => s.getD i 0)).length = samples.length :=
    List.length_map _ _
  have hcount : (mvRun d samples).count = samples.length := by rw [hcnt, wc, hxlen]
  refine ⟨?_, ?_, ?_, ?_⟩
  · rw [getElem?_eq_some_getD _ (0 : ℚ) i (by rw [hml2]; exact hi), hmean, wm, hxlen]
  · intro hn2
    have hnz : ((samples.length : ℚ)) ≠ 0 := Nat.cast_ne_zero.mpr (by omega)
    have hok : mvVariance (mvRun d samples) = Except.ok (varianceList (mvRun d samples)) := by
      rw [mvVariance, if_neg (by omega)]
    refine ⟨hok, ?_⟩
    have hvl : (varianceList (mvRun d samples)).length = d := by
      simp [varianceList, hql2]
    rw [getElem?_eq_some_getD _ (0 : ℚ) i (by rw [hvl]; exact hi), varianceList,
      getD_map_q _ _ _ (by rw [hql2]; exact hi), hM2, wq]
    have hcast : (((mvRun d samples).count - 1 : ℕ) : ℚ) = (samples.length : ℚ) - 1 := by
      rw [hcount]
      exact Nat.cast_pred (by omega)
    rw [hcast]
    have hmm : (samples.map (fun s => (s.getD i 0 -
        (samples.map (fun t => t.getD i 0)).sum / (samples.length : ℚ)) ^ 2)).sum =
        ((samples.map (fun s => s.getD i 0)).map (fun x => (x -
          (samples.map (fun t => t.getD i 0)).sum / (samples.length : ℚ)) ^ 2)).sum := by
      simp [List.map_map, Function.comp_def]
    rw [hmm, sum_sq_dev _ (samples.map (fun s => s.getD i 0)), hxlen]
    have hnz1 : ((samples.length : ℚ)) - 1 ≠ 0 := by
      have h1 : (1 : ℚ) < (samples.length : ℚ) := by
        exact_mod_cast (by omega : 1 < samples.length)
      intro hcon
      apply absurd h1
      simp [sub_eq_zero] at hcon
      simp [hcon]
    congr 1
    field_simp
    ring
  · norm_num [mvRun, mvInit, mvStep]
  · norm_num [mvRun, mvInit, mvStep, mvVariance, varianceList]

/-- Witness for C2 at the concrete input of the claim: four scalar samples
1, 2, 3, 4 of shape 1. -/
theorem mv_welford_matches_batch_witness :
    (∀ s ∈ ([[1], [2], [3], [4]] : List (List ℚ)), s.length = 1) ∧ 0 < 1 ∧
    (mvRun 1 [[1], [2], [3], [4]]).mean = [5 / 2] ∧
    mvVariance (mvRun 1 [[1], [2], [3], [4]]) = Except.ok [5 / 3] :=
  ⟨by decide, by decide,
    (mv_welford_matches_batch 1 [[1], [2], [3], [4]] (by decide) 0 (by decide)).2.2⟩

/-- C8: the variance accessor returns `M2 / (count - 1)` elementwise once at
least two samples were accumulated and fails with `InsufficientSamples` on
fewer; being a pure accessor, the failing read leaves the state untouched. -/
theorem mv_variance_guard (d : ℕ) (samples : List (List ℚ))
    (h : ∀ s ∈ samples, s.length = d) (i : ℕ) (hi : i < d) :
    (2 ≤ samples.length →
      mvVariance (mvRun d samples) = Except.ok (varianceList (mvRun d samples)) ∧
      (varianceList (mvRun d samples))[i]? =
        some ((mvRun d samples).M2.getD i 0 / (((mvRun d samples).count : ℚ) - 1))) ∧
    (samples.length < 2 →
      mvVariance (mvRun d samples) = Except.error Err.insufficientSamples) := by
  have hcount : (mvRun d samples).count = samples.length := by
    have := foldl_mvStep_count samples (mvInit d)
    simpa [mvRun, mvInit] using this
  obtain ⟨hml, hql⟩ := foldl_mvStep_lengths d samples (mvInit d)
    (by simp [mvInit]) (by simp [mvInit]) h
  have hml2 : (mvRun d samples).mean.length = d := hml
  have hql2 : (mvRun d samples).M2.length = d := hql
  constructor
  · intro hn2
    have hok : mvVariance (mvRun d samples) = Except.ok (varianceList (mvRun d samples)) := by
      rw [mvVariance, if_neg (by omega)]
    refine ⟨hok, ?_⟩
    have hvl : (varianceList (mvRun d samples)).length = d := by
      simp [varianceList, hql2]
    rw [getElem?_eq_some_getD _ (0 : ℚ) i (by rw [hvl]; exact hi), varianceList,
      getD_map_q _ _ _ (by rw [hql2]; exact hi)]
    rw [Nat.cast_pred (by omega)]
  · intro hlt
    rw [mvVariance, if_pos (by omega)]

/-- Witness for C8: two scalar samples make the variance defined; the
theorem applied at samples 3, 4 of shape 1. -/
theorem mv_variance_guard_witness :
    (∀ s ∈ ([[3], [4]] : List (List ℚ)), s.length = 1) ∧ 0 < 1 ∧
    2 ≤ ([[3], [4]] : List (List ℚ)).length ∧
    mvVariance (mvRun 1 [[3], [4]]) = Except.ok (varianceList (mvRun 1 [[3], [4]])) :=
  ⟨by decide, by decide, by decide,
    ((mv_variance_guard 1 [[3], [4]] (by decide) 0 (by decide)).1 (by decide)).1⟩

/-- C10: wherever they are defined, the three accessors of the running-moments
accumulator return their flat core vectors successfully reshaped to the same
declared shape, so mean, variance and standard error always agree in shape
with the observable. -/
theorem mv_accessor_shapes (sq : ℚ → ℚ) (d : ℕ) (samples : List (List ℚ))
    (h : ∀ s ∈ samples, s.length = d) (h2 : 2 ≤ samples.length) :
    pyMean d (mvRun d samples) = some ((mvRun d samples).mean) ∧
    pyVariance d (mvRun d samples) = Except.ok (some (varianceList (mvRun d samples))) ∧
    pyStdError sq d (mvRun d samples) =
      Except.ok (some ((varianceList (mvRun d samples)).map
        (fun x => sq (x / ((mvRun d samples).count : ℚ))))) ∧
    (mvRun d samples).mean.length = d ∧
    (varianceList (mvRun d samples)).length = d ∧
    ((varianceList (mvRun d samples)).map
      (fun x => sq (x / ((mvRun d samples).count : ℚ)))).length = d := by
  have hcount : (mvRun d samples).count = samples.length := by
    have := foldl_mvStep_count samples (mvInit d)
    simpa [mvRun, mvInit] using this
  obtain ⟨hml, hql⟩ := foldl_mvStep_lengths d samples (mvInit d)
    (by simp [mvInit]) (by simp [mvInit]) h
  have hml2 : (mvRun d samples).mean.length = d := hml
  have hql2 : (mvRun d samples).M2.length = d := hql
  have hvl : (varianceList (mvRun d samples)).length = d := by
    simp [varianceList, hql2]
  have hok : mvVariance (mvRun d samples) = Except.ok (varianceList (mvRun d samples)) := by
    rw [mvVariance, if_neg (by omega)]
  refine ⟨?_, ?_, ?_, hml2, hvl, by simp [hvl]⟩
  · simp [pyMean, reshape, hml2]
  · simp [pyVariance, hok, reshape, hvl, Except.map]
  · simp [pyStdError, mvStdError, hok, reshape, hvl, Except.map]

/-- Witness for C10: the accessor-shape theorem applied to two scalar
samples with the identity in place of the square root. -/
theorem mv_accessor_shapes_witness :
    (∀ s ∈ ([[1], [2]] : List (List ℚ)), s.length = 1) ∧
    2 ≤ ([[1], [2]] : List (List ℚ)).length ∧
    ((mvRun 1 [[1], [2]]).mean.length = 1 ∧
      (varianceList (mvRun 1 [[1], [2]])).length = 1) :=
  ⟨by decide, by decide,
    (mv_accessor_shapes id 1 [[1], [2]] (by decide) (by decide)).2.2.2.1,
    (mv_accessor_shapes id 1 [[1], [2]] (by decide) (by decide)).2.2.2.2.1⟩

/-! ## Time-series recorder: insertion order, clear, shape retention -/

theorem tsRun_fixed (d : ℕ) : ∀ (samples : List (List ℚ)) (log : List (List ℚ)),
    (∀ s ∈ samples, s.length = d) →
    tsRun ⟨log, some d⟩ samples = Except.ok ⟨log ++ samples, some d⟩
  | [], log, _ => by simp [tsRun, pure, Except.pure]
  | s :: rest, log, h => by
    have hs : s.length = d := h s (by simp)
    have ih := tsRun_fixed d rest (log ++ [s]) (fun t ht => h t (by simp [ht]))
    simp only [tsRun, List.foldlM_cons, tsUpdate, hs, if_pos]
    simp only [tsRun] at ih
    simp [Bind.bind, Except.bind, ih]

/-- C9: feeding samples `s1..sn` to the recorder makes `time_series()` return
exactly `[s1, ..., sn]` in insertion order (the accessor is pure); after
`clear()` the log reads empty until a new sample arrives, while the shape
fixed at the first update survives the clear. -/
theorem ts_time_series_order (d : ℕ) (samples : List (List ℚ))
    (h : ∀ s ∈ samples, s.length = d) (hne : samples ≠ []) :
    ∃ st : TSState, tsRun tsInit samples = Except.ok st ∧
      tsTimeSeries st = samples ∧ st.shp = some d ∧
      tsTimeSeries (tsClear st) = [] ∧ (tsClear st).shp = st.shp ∧
      ∀ s : List ℚ, s.length = d → tsUpdate (tsClear st) s = Except.ok ⟨[s], some d⟩ := by
  match samples with
  | [] => exact absurd rfl hne
  | s :: rest =>
    have hs : s.length = d := h s (by simp)
    refine ⟨⟨s :: rest, some d⟩, ?_, rfl, rfl, rfl, rfl, ?_⟩
    · have ih := tsRun_fixed d rest [s] (fun t ht => h t (by simp [ht]))
      simp only [tsRun, List.foldlM_cons, tsInit, tsUpdate]
      simp only [tsRun] at ih
      simp [Bind.bind, Except.bind, hs, ih]
    · intro t ht
      simp [tsClear, tsUpdate, ht]

/-- Witness for C9: the recorder run on the two scalar samples 1 and 2. -/
theorem ts_time_series_order_witness :
    (∀ s ∈ ([[1], [2]] : List (List ℚ)), s.length = 1) ∧
    ([[1], [2]] : List (List ℚ)) ≠ [] ∧
    (∃ st : TSState, tsRun tsInit [[1], [2]] = Except.ok st ∧
      tsTimeSeries st = [[1], [2]] ∧ st.shp = some 1 ∧
      tsTimeSeries (tsClear st) = [] ∧ (tsClear st).shp = st.shp ∧
      ∀ s : List ℚ, s.length = 1 → tsUpdate (tsClear st) s = Except.ok ⟨[s], some 1⟩) :=
  ⟨by decide, by simp,
    ts_time_series_order 1 [[1], [2]] (by decide) (by simp)⟩

/-! ## Shape rejection of `update` across all three accumulators -/

/-- C7: a sample whose shape disagrees with the fixed one makes `update` fail
with `ShapeMismatch` on each accumulator — running moments, time series and
correlator — and the rejection produces no successor state, so the
accumulator state current before the call stays current. -/
theorem update_shape_guard {V : Type} [Zero V] [Add V]
    (op : List ℚ → List ℚ → V) (cA cB : List ℚ → List ℚ → List ℚ)
    (tl cap dA dB d d2 : ℕ) (st : MVState) (x : List ℚ) (hx : x.length ≠ d)
    (ts : TSState) (hts : ts.shp = some d2) (y : List ℚ) (hy : y.length ≠ d2)
    (ls : List (CLevel (List ℚ) V)) (a b : List ℚ)
    (hab : ¬(a.length = dA ∧ b.length = dB)) :
    mvUpdate d st x = Except.error Err.shapeMismatch ∧
    tsUpdate ts y = Except.error Err.shapeMismatch ∧
    corrUpdate op cA cB tl cap dA dB ls a b = Except.error Err.shapeMismatch := by
  refine ⟨?_, ?_, ?_⟩
  · simp [mvUpdate, hx]
  · simp [tsUpdate, hts, hy]
  · simp only [corrUpdate]
    rw [if_neg hab]

/-- Witness for C7: a two-component sample rejected by accumulators declared
for scalar observables. -/
theorem update_shape_guard_witness :
    ([1, 2] : List ℚ).length ≠ 1 ∧
    (⟨[], some 1⟩ : TSState).shp = some 1 ∧
    ¬(([1, 2] : List ℚ).length = 1 ∧ ([1] : List ℚ).length = 1) ∧
    (mvUpdate 1 (mvInit 1) [1, 2] = Except.error Err.shapeMismatch ∧
      tsUpdate ⟨[], some 1⟩ [1, 2] = Except.error Err.shapeMismatch ∧
      corrUpdate scalarProduct discard2 discard2 2 2 1 1 [] [1, 2] [1] =
        Except.error Err.shapeMismatch) :=
  ⟨by decide, rfl, by decide,
    update_shape_guard scalarProduct discard2 discard2 2 2 1 1 1 1
      (mvInit 1) [1, 2] (by decide) ⟨[], some 1⟩ rfl [1, 2] (by decide)
      [] [1, 2] [1] (by decide)⟩

/-! ## Correlator: the concrete end-to-end run of claim C1 -/

/-- C1: after the six scalar samples 1, 2, 1, 2, 1, 2 (one per step,
`tau_lin = 2`, `dt = 1`, `delta_N = 1`, scalar product, discard2 on both
streams), the lag-0 entry of `result()` is `5/2` — the mean of the six
products 1, 4, 1, 4, 1, 4 over its own counter 6 — and the lag-1 entry is
`2` — the mean of the five cross products 2, 2, 2, 2, 2 over its own
counter 5. -/
theorem corr_c1_result :
    (resultOf 2 c1State)[0]? = some (some (5 / 2)) ∧
    (resultOf 2 c1State)[1]? = some (some 2) ∧
    (sampleSizesOf 2 c1State)[0]? = some 6 ∧
    (sampleSizesOf 2 c1State)[1]? = some 5 := by
  norm_num [c1State, runUpdates, updL, levelStep, accumulate, emptyLevel, resultOf,
    lagEntries, scalarProduct, discard2, bumpCounts, accSums, sampleSizesOf]

/-! ## Correlator: finalize is idempotent -/

theorem finLevels_idem_aux {A V : Type} [Zero V] [Add V] (op : A → A → V)
    (cA cB : A → A → A) (tl : ℕ) :
    ∀ (cap : ℕ) (ls : List (CLevel A V)),
      finLevels op cA cB tl cap (finLevels op cA cB tl cap ls) =
        finLevels op cA cB tl cap ls
  | 0, _ => rfl
  | _ + 1, [] => rfl
  | cap + 1, l :: ls => by
    cases hp : l.pending with
    | none =>
      have ih := finLevels_idem_aux op cA cB tl cap ls
      simp [finLevels, hp, ih]
    | some v =>
      have ih := finLevels_idem_aux op cA cB tl cap
        (updL op cA cB tl cap ls (cA v.1 v.1, cB v.2 v.2))
      simp [finLevels, hp, ih]

/-- C5: `finalize()` is idempotent — for every correlator state, every level
capacity and every operation and compression pair, flushing the hierarchy a
second time changes none of `result()`, `lag_times()` and `sample_sizes()`. -/
theorem corr_finalize_idempotent {A V : Type} [Zero V] [Add V] [Div V] [NatCast V]
    (op : A → A → V) (cA cB : A → A → A) (tl cap : ℕ) (dt : ℚ)
    (ls : List (CLevel A V)) :
    resultOf tl (finLevels op cA cB tl cap (finLevels op cA cB tl cap ls)) =
      resultOf tl (finLevels op cA cB tl cap ls) ∧
    lagTimesOf tl dt (finLevels op cA cB tl cap (finLevels op cA cB tl cap ls)) =
      lagTimesOf tl dt (finLevels op cA cB tl cap ls) ∧
    sampleSizesOf tl (finLevels op cA cB tl cap (finLevels op cA cB tl cap ls)) =
      sampleSizesOf tl (finLevels op cA cB tl cap ls) := by
  rw [finLevels_idem_aux]
  exact ⟨rfl, rfl, rfl⟩

/-! ## Correlator: per-level bookkeeping invariant -/

theorem bumpCounts_getElem? (bl : ℕ) : ∀ (cs : List ℕ) (k0 i : ℕ),
    (bumpCounts bl k0 cs)[i]? = cs[i]?.map (fun c => if k0 + i < bl then c + 1 else c)
  | [], k0, i => by simp [bumpCounts]
  | c :: cs, k0, 0 => by simp [bumpCounts]
  | c :: cs, k0, i + 1 => by
    have h1 : k0 + 1 + i = k0 + (i + 1) := by omega
    have ih := bumpCounts_getElem? bl cs (k0 + 1) i
    simp [bumpCounts, ih, h1]

theorem bumpCounts_length (bl : ℕ) : ∀ (cs : List ℕ) (k0 : ℕ),
    (bumpCounts bl k0 cs).length = cs.length
  | [], _ => rfl
  | _ :: cs, k0 => by simp [bumpCounts, bumpCounts_length bl cs (k0 + 1)]

theorem accSums_length {A V : Type} [Add V] (op : A → A → V) (buf : List (A × A))
    (bnew : A) : ∀ (svs : List V) (k0 : ℕ),
    (accSums op buf bnew k0 svs).length = svs.length
  | [], _ => rfl
  | _ :: svs, k0 => by simp [accSums, accSums_length op buf bnew svs (k0 + 1)]

theorem bumpCounts_range_map (tl n bl : ℕ) (hbl : bl = min (n + 1) (tl + 1)) :
    bumpCounts bl 0 ((List.range tl).map (fun k => n - k)) =
      (List.range tl).map (fun k => n + 1 - k) := by
  apply List.ext_getElem?
  intro j
  rw [bumpCounts_getElem?, List.getElem?_map, List.getElem?_map]
  by_cases hj : j < tl
  · rw [List.getElem?_range hj]
    simp only [Option.map_some']
    congr 1
    split_ifs with hcond <;> omega
  · rw [List.getElem?_eq_none (by simpa using (by omega : tl ≤ j))]
    simp

theorem replicate_zero_counts (tl : ℕ) :
    List.replicate tl (0 : ℕ) = (List.range tl).map (fun k => 0 - k) := by
  simp

theorem accumulate_counts {A V : Type} [Add V] (op : A → A → V) (tl : ℕ)
    (l : CLevel A V) (s : A × A) :
    (accumulate op tl l s).counts =
      bumpCounts (min (tl + 1) (l.buffer.length + 1)) 0 l.counts := by
  simp [accumulate, List.length_take]
  have h : tl ⊓ l.buffer.length + 1 = (tl + 1) ⊓ (l.buffer.length + 1) := by omega
  rw [h]

theorem accumulate_buffer_length {A V : Type} [Add V] (op : A → A → V) (tl : ℕ)
    (l : CLevel A V) (s : A × A) :
    (accumulate op tl l s).buffer.length = min (tl + 1) (l.buffer.length + 1) := by
  simp [accumulate, List.length_take]
  omega

theorem updL_cons_none {A V : Type} [Zero V] [Add V] (op : A → A → V)
    (cA cB : A → A → A) (tl cap : ℕ) (l : CLevel A V) (ls : List (CLevel A V))
    (s : A × A) (hp : l.pending = none) :
    updL op cA cB tl (cap + 1) (l :: ls) s =
      { accumulate op tl l s with pending := some s } :: ls := by
  simp [updL, levelStep, hp]

theorem updL_cons_some {A V : Type} [Zero V] [Add V] (op : A → A → V)
    (cA cB : A → A → A) (tl cap : ℕ) (l : CLevel A V) (ls : List (CLevel A V))
    (s v : A × A) (hp : l.pending = some v) :
    updL op cA cB tl (cap + 1) (l :: ls) s =
      { accumulate op tl l s with pending := none } ::
        updL op cA cB tl cap ls (cA v.1 s.1, cB v.2 s.2) := by
  simp [updL, levelStep, hp]

theorem updL_nil {A V : Type} [Zero V] [Add V] (op : A → A → V)
    (cA cB : A → A → A) (tl cap : ℕ) (s : A × A) :
    updL op cA cB tl (cap + 1) ([] : List (CLevel A V)) s =
      [{ accumulate op tl (emptyLevel tl) s with pending := some s }] := by
  simp [updL, levelStep, emptyLevel]

theorem updL_inv {A V : Type} [Zero V] [Add V] (op : A → A → V) (cA cB : A → A → A)
    (tl : ℕ) : ∀ (ls : List (CLevel A V)) (cap n : ℕ) (s : A × A),
    LevelsInv tl cap ls n → LevelsInv tl cap (updL op cA cB tl cap ls s) (n + 1)
  | [], cap, n, s, hinv => by
    cases cap with
    | zero => exact Or.inl rfl
    | succ c =>
      have hn : n = 0 := by
        rcases hinv with h | h
        · omega
        · exact h
      subst hn
      rw [updL_nil]
      refine ⟨by omega, by omega, ?_, ?_, ?_, Or.inr (by norm_num)⟩
      · rw [accumulate_counts]
        show bumpCounts _ 0 (List.replicate tl 0) = _
        rw [replicate_zero_counts, bumpCounts_range_map tl 0 _ (by simp only [emptyLevel, List.length_nil]; omega)]
      · rw [accumulate_buffer_length]
        simp only [emptyLevel, List.length_nil]
        omega
      · simp
  | l :: ls, cap, n, s, hinv => by
    cases cap with
    | zero => exact absurd hinv.1 (by omega)
    | succ c =>
      obtain ⟨-, hn, hcounts, hbuf, hpend, htail⟩ := hinv
      cases hp : l.pending with
      | none =>
        have hev : n % 2 = 0 := hpend.mp hp
        rw [updL_cons_none op cA cB tl c l ls s hp]
        refine ⟨by omega, by omega, ?_, ?_, ?_, ?_⟩
        · show (accumulate op tl l s).counts = _
          rw [accumulate_counts, hcounts, hbuf]
          exact bumpCounts_range_map tl n _ (by omega)
        · show (accumulate op tl l s).buffer.length = _
          rw [accumulate_buffer_length, hbuf]
          omega
        · show (some s = none ↔ (n + 1) % 2 = 0)
          simp
          omega
        · show LevelsInv tl c ls ((n + 1) / 2)
          have h2 : (n + 1) / 2 = n / 2 := by omega
          rw [h2]
          exact htail
      | some v =>
        have hodd : ¬ n % 2 = 0 := fun hcon => by
          have := hpend.mpr hcon
          rw [hp] at this
          exact Option.noConfusion this
        rw [updL_cons_some op cA cB tl c l ls s v hp]
        have htail2 := updL_inv op cA cB tl ls c (n / 2) (cA v.1 s.1, cB v.2 s.2) htail
        refine ⟨by omega, by omega, ?_, ?_, ?_, ?_⟩
        · show (accumulate op tl l s).counts = _
          rw [accumulate_counts, hcounts, hbuf]
          exact bumpCounts_range_map tl n _ (by omega)
        · show (accumulate op tl l s).buffer.length = _
          rw [accumulate_buffer_length, hbuf]
          omega
        · show ((none : Option (A × A)) = none ↔ (n + 1) % 2 = 0)
          simp
          omega
        · show LevelsInv tl c _ ((n + 1) / 2)
          have h2 : (n + 1) / 2 = n / 2 + 1 := by omega
          rw [h2]
          exact htail2

theorem runUpdates_inv {A V : Type} [Zero V] [Add V] (op : A → A → V)
    (cA cB : A → A → A) (tl cap : ℕ) :
    ∀ (samples : List (A × A)) (ls : List (CLevel A V)) (n : ℕ),
      LevelsInv tl cap ls n →
      LevelsInv tl cap (List.foldl (updL op cA cB tl cap) ls samples)
        (n + samples.length)
  | [], ls, n, hinv => by simpa using hinv
  | s :: rest, ls, n, hinv => by
    have h1 := updL_inv op cA cB tl ls cap n s hinv
    have h2 := runUpdates_inv op cA cB tl cap rest (updL op cA cB tl cap ls s) (n + 1) h1
    simpa [List.foldl_cons, Nat.add_assoc, Nat.add_comm, Nat.add_left_comm] using h2

/-! ## Correlator: sample sizes are non-increasing along the lag axis -/

theorem chain'_ge_counts (tl n : ℕ) :
    List.Chain' (fun a b => b ≤ a) ((List.range tl).map (fun k => n - k)) := by
  rw [List.chain'_map, List.chain'_iff_get]
  intro i h
  simp only [List.get_eq_getElem, List.getElem_range]
  omega

theorem chain'_drop {α : Type} {R : α → α → Prop} :
    ∀ (k : ℕ) (l : List α), List.Chain' R l → List.Chain' R (l.drop k)
  | 0, _, h => h
  | _ + 1, [], _ => List.chain'_nil
  | k + 1, _ :: l, h => chain'_drop k l h.tail

theorem getLast?_map_range {α : Type} (f : ℕ → α) (tl : ℕ) (h : 0 < tl) :
    ((List.range tl).map f).getLast? = some (f (tl - 1)) := by
  cases tl with
  | zero => omega
  | succ m =>
    rw [List.range_succ, List.map_append]
    simp [List.getLast?_concat]

theorem getLast?_drop {α : Type} : ∀ (l : List α) (k : ℕ), k < l.length →
    (l.drop k).getLast? = l.getLast?
  | _, 0, _ => rfl
  | [], k + 1, h => by simp at h
  | a :: l, k + 1, h => by
    have hl : k < l.length := by simpa using h
    have ih := getLast?_drop l k hl
    rw [List.drop_succ_cons, ih]
    have hne : l ≠ [] := by
      intro hcon
      subst hcon
      simp at hl
    rw [show (a :: l) = [a] ++ l from rfl, List.getLast?_append]
    obtain ⟨y, hy⟩ := Option.isSome_iff_exists.mp (List.getLast?_isSome.mpr hne)
    simp [hy]

theorem tailSizes_chain {A V : Type} (tl : ℕ) :
    ∀ (ls : List (CLevel A V)) (cap m : ℕ), LevelsInv tl cap ls m →
      List.Chain' (fun a b => b ≤ a)
        ((ls.map (fun l2 => l2.counts.drop (tl / 2))).flatten) ∧
      ∀ y ∈ ((ls.map (fun l2 => l2.counts.drop (tl / 2))).flatten).head?,
        y ≤ m - tl / 2
  | [], _, _, _ => ⟨List.chain'_nil, by simp⟩
  | l2 :: ls, cap, m, hinv => by
    obtain ⟨hcap, hm, hcounts, hbuf, hpend, htail⟩ := hinv
    have ih := tailSizes_chain tl ls (cap - 1) (m / 2) htail
    rw [List.map_cons, List.flatten_cons]
    constructor
    · rw [List.chain'_append]
      refine ⟨?_, ih.1, ?_⟩
      · rw [hcounts]
        exact chain'_drop _ _ (chain'_ge_counts tl m)
      · intro x hx y hy
        rcases Nat.eq_zero_or_pos tl with h0 | hpos
        · subst h0
          rw [hcounts] at hx
          simp at hx
        · rw [hcounts] at hx
          have hlen : tl / 2 < ((List.range tl).map (fun k => m - k)).length := by
            simp
            omega
          rw [getLast?_drop _ _ hlen, getLast?_map_range _ _ hpos] at hx
          have hxv : m - (tl - 1) = x := by simpa using hx
          have hyv := ih.2 y hy
          omega
    · intro y hy
      rw [List.head?_append] at hy
      rcases Nat.eq_zero_or_pos tl with h0 | hpos
      · subst h0
        rw [hcounts] at hy
        simp only [List.range_zero, List.map_nil, List.drop_nil, List.head?_nil,
          Option.none_or] at hy
        have hyv := ih.2 y hy
        omega
      · rw [hcounts] at hy
        have hh : (((List.range tl).map (fun k => m - k)).drop (tl / 2)).head? =
            some (m - tl / 2) := by
          rw [List.head?_drop, List.getElem?_map, List.getElem?_range (by omega)]
          rfl
        rw [hh] at hy
        simp only [Option.or, Option.mem_def, Option.some.injEq] at hy
        omega

/-- C4: for every correlator configuration — any operation, compression pair,
`tau_lin` and level capacity — and every finite run of updates, the per-lag
sample counters exposed by `sample_sizes()` form a non-increasing sequence
along increasing lag index. -/
theorem corr_sample_sizes_nonincreasing {A V : Type} [Zero V] [Add V]
    (op : A → A → V) (cA cB : A → A → A) (tl cap : ℕ) (samples : List (A × A)) :
    List.Pairwise (fun a b => b ≤ a)
      (sampleSizesOf tl (runUpdates op cA cB tl cap samples)) := by
  haveI : IsTrans ℕ (fun a b => b ≤ a) := ⟨fun _ _ _ h1 h2 => le_trans h2 h1⟩
  rw [← List.chain'_iff_pairwise]
  have hinv := runUpdates_inv op cA cB tl cap samples [] 0 (Or.inr rfl)
  cases hls : runUpdates op cA cB tl cap samples with
  | nil => simp [sampleSizesOf]
  | cons l ls =>
    have hinv2 : LevelsInv tl cap (l :: ls) samples.length := by
      rw [← hls]
      show LevelsInv tl cap (List.foldl (updL op cA cB tl cap) [] samples) samples.length
      simpa using hinv
    obtain ⟨-, -, hcounts, -, -, htail⟩ := hinv2
    have hts := tailSizes_chain tl ls (cap - 1) (samples.length / 2) htail
    show List.Chain' _ (sampleSizesOf tl (l :: ls))
    rw [show sampleSizesOf tl (l :: ls) =
      l.counts ++ (ls.map (fun l2 => l2.counts.drop (tl / 2))).flatten from rfl]
    rw [List.chain'_append]
    refine ⟨?_, hts.1, ?_⟩
    · rw [hcounts]
      exact chain'_ge_counts tl samples.length
    · intro x hx y hy
      rcases Nat.eq_zero_or_pos tl with h0 | hpos
      · subst h0
        rw [hcounts] at hx
        simp at hx
      · rw [hcounts, getLast?_map_range _ _ hpos] at hx
        have hxv : samples.length - (tl - 1) = x := by simpa using hx
        have hyv := hts.2 y hy
        omega

/-! ## Correlator: lag times are strictly increasing and aligned with result -/

theorem updL_wf {A V : Type} [Zero V] [Add V] (op : A → A → V) (cA cB : A → A → A)
    (tl : ℕ) : ∀ (ls : List (CLevel A V)) (cap : ℕ) (s : A × A),
    (∀ l ∈ ls, l.sums.length = tl ∧ l.counts.length = tl) →
    ∀ l ∈ updL op cA cB tl cap ls s, l.sums.length = tl ∧ l.counts.length = tl
  | [], 0, _, h => h
  | _ :: _, 0, _, h => h
  | [], cap + 1, s, _ => by
    rw [updL_nil]
    intro l hl
    simp only [List.mem_singleton] at hl
    subst hl
    constructor
    · simp [accumulate, accSums_length, emptyLevel]
    · simp [accumulate, bumpCounts_length, emptyLevel]
  | l0 :: ls, cap + 1, s, h => by
    have h0 := h l0 (by simp)
    cases hp : l0.pending with
    | none =>
      rw [updL_cons_none op cA cB tl cap l0 ls s hp]
      intro l hl
      rcases List.mem_cons.mp hl with rfl | hl2
      · constructor
        · simp [accumulate, accSums_length, h0.1]
        · simp [accumulate, bumpCounts_length, h0.2]
      · exact h l (by simp [hl2])
    | some v =>
      rw [updL_cons_some op cA cB tl cap l0 ls s v hp]
      intro l hl
      rcases List.mem_cons.mp hl with rfl | hl2
      · constructor
        · simp [accumulate, accSums_length, h0.1]
        · simp [accumulate, bumpCounts_length, h0.2]
      · exact updL_wf op cA cB tl ls cap _ (fun t ht => h t (by simp [ht])) l hl2

theorem runUpdates_wf {A V : Type} [Zero V] [Add V] (op : A → A → V)
    (cA cB : A → A → A) (tl cap : ℕ) (samples : List (A × A)) :
    ∀ l ∈ runUpdates op cA cB tl cap samples,
      l.sums.length = tl ∧ l.counts.length = tl := by
  suffices hgen : ∀ (ss : List (A × A)) (ls : List (CLevel A V)),
      (∀ l ∈ ls, l.sums.length = tl ∧ l.counts.length = tl) →
      ∀ l ∈ List.foldl (updL op cA cB tl cap) ls ss,
        l.sums.length = tl ∧ l.counts.length = tl by
    exact hgen samples [] (by simp)
  intro ss
  induction ss with
  | nil => intro ls h; simpa using h
  | cons s rest ih =>
    intro ls h
    rw [List.foldl_cons]
    exact ih (updL op cA cB tl cap ls s) (updL_wf op cA cB tl ls cap s h)

theorem upperTimes_length (tl : ℕ) (dt : ℚ) :
    ∀ (rest p : ℕ), (upperTimes tl dt p rest).length = rest * (tl - tl / 2)
  | 0, _ => by simp [upperTimes]
  | rest + 1, p => by
    simp [upperTimes, upperTimes_length tl dt rest (p + 1), List.length_drop]
    ring

theorem upperTimes_chain (tl : ℕ) (dt : ℚ) (hdt : 0 < dt) (hev : tl % 2 = 0) :
    ∀ (rest p : ℕ),
      List.Chain' (· < ·) (upperTimes tl dt p rest) ∧
      ∀ y ∈ (upperTimes tl dt p rest).head?, y = ((tl / 2 : ℕ) : ℚ) * (2 ^ p * dt)
  | 0, p => ⟨List.chain'_nil, by simp [upperTimes]⟩
  | rest + 1, p => by
    have ih := upperTimes_chain tl dt hdt hev rest (p + 1)
    have hp2 : (0 : ℚ) < 2 ^ p * dt := by positivity
    have hbase : List.Chain' (fun a b : ℚ => a < b)
        ((List.range tl).map (fun k : ℕ => (k : ℚ) * (2 ^ p * dt))) := by
      rw [List.chain'_map, List.chain'_iff_get]
      intro i h
      simp only [List.get_eq_getElem, List.getElem_range]
      apply mul_lt_mul_of_pos_right _ hp2
      push_cast
      linarith
    have hcast : ((tl / 2 : ℕ) : ℚ) * (2 ^ (p + 1) * dt) = (tl : ℚ) * (2 ^ p * dt) := by
      have hn : (tl / 2) * 2 = tl := by omega
      calc ((tl / 2 : ℕ) : ℚ) * (2 ^ (p + 1) * dt)
        = (((tl / 2) * 2 : ℕ) : ℚ) * (2 ^ p * dt) := by push_cast; ring
      _ = (tl : ℚ) * (2 ^ p * dt) := by rw [hn]
    constructor
    · show List.Chain' (· < ·)
        (((List.range tl).drop (tl / 2)).map (fun k : ℕ => (k : ℚ) * (2 ^ p * dt)) ++
          upperTimes tl dt (p + 1) rest)
      rw [List.chain'_append]
      refine ⟨?_, ih.1, ?_⟩
      · rw [List.map_drop]
        exact chain'_drop _ _ hbase
      · intro x hx y hy
        rcases Nat.eq_zero_or_pos tl with h0 | hpos
        · subst h0
          simp at hx
        · rw [List.map_drop] at hx
          have hlen : tl / 2 <
              ((List.range tl).map (fun k : ℕ => (k : ℚ) * (2 ^ p * dt))).length := by
            simp
            omega
          rw [getLast?_drop _ _ hlen, getLast?_map_range _ _ hpos] at hx
          have hxv : ((tl - 1 : ℕ) : ℚ) * (2 ^ p * dt) = x := by simpa using hx
          have hyv := ih.2 y hy
          rw [← hxv, hyv, hcast]
          apply mul_lt_mul_of_pos_right _ hp2
          exact_mod_cast (by omega : tl - 1 < tl)
    · intro y hy
      rcases Nat.eq_zero_or_pos tl with h0 | hpos
      · subst h0
        show y = ((0 / 2 : ℕ) : ℚ) * (2 ^ p * dt)
        have hy2 : y ∈ (upperTimes 0 dt (p + 1) rest).head? := by
          simpa [upperTimes] using hy
        have := ih.2 y hy2
        simpa using this
      · have hh : (((List.range tl).drop (tl / 2)).map
            (fun k : ℕ => (k : ℚ) * (2 ^ p * dt))).head? =
            some (((tl / 2 : ℕ) : ℚ) * (2 ^ p * dt)) := by
          rw [List.map_drop, List.head?_drop, List.getElem?_map,
            List.getElem?_range (by omega : tl / 2 < tl)]
          rfl
        have hy2 : y ∈ ((((List.range tl).drop (tl / 2)).map
            (fun k : ℕ => (k : ℚ) * (2 ^ p * dt))) ++ upperTimes tl dt (p + 1) rest).head? := hy
        rw [List.head?_append, hh] at hy2
        simp only [Option.or, Option.mem_def, Option.some.injEq] at hy2
        exact hy2.symm

/-- C3: for every correlator configuration with a positive sampling interval
and an even `tau_lin`, and for every run of updates, `lag_times()` is strictly
increasing — `tau_lin` values spaced `dt` for level 0, then `tau_lin/2` new
values spaced `dt * 2 ^ p` per populated level `p` — and its length equals the
first dimension of `result()`. -/
theorem corr_lag_times_strict_mono {A V : Type} [Zero V] [Add V] [Div V] [NatCast V]
    (op : A → A → V) (cA cB : A → A → A) (tl cap : ℕ) (dt : ℚ)
    (hdt : 0 < dt) (hev : tl % 2 = 0) (samples : List (A × A)) :
    List.Pairwise (· < ·)
      (lagTimesOf tl dt (runUpdates op cA cB tl cap samples)) ∧
    (lagTimesOf tl dt (runUpdates op cA cB tl cap samples)).length =
      (resultOf tl (runUpdates op cA cB tl cap samples)).length := by
  have hwf := runUpdates_wf op cA cB tl cap samples (V := V)
  cases hls : runUpdates op cA cB tl cap samples with
  | nil => exact ⟨by simp [lagTimesOf], by simp [lagTimesOf, resultOf]⟩
  | cons l ls =>
    rw [hls] at hwf
    have hup := upperTimes_chain tl dt hdt hev ls.length 1
    constructor
    · rw [← List.chain'_iff_pairwise]
      show List.Chain' _ ((List.range tl).map (fun k : ℕ => (k : ℚ) * dt) ++
        upperTimes tl dt 1 ls.length)
      rw [List.chain'_append]
      refine ⟨?_, hup.1, ?_⟩
      · rw [List.chain'_map, List.chain'_iff_get]
        intro i h
        simp only [List.get_eq_getElem, List.getElem_range]
        apply mul_lt_mul_of_pos_right _ hdt
        push_cast
        linarith
      · intro x hx y hy
        rcases Nat.eq_zero_or_pos tl with h0 | hpos
        · subst h0
          simp at hx
        · rw [getLast?_map_range _ _ hpos] at hx
          have hxv : ((tl - 1 : ℕ) : ℚ) * dt = x := by simpa using hx
          have hyv := hup.2 y hy
          have hcast : ((tl / 2 : ℕ) : ℚ) * (2 ^ 1 * dt) = (tl : ℚ) * dt := by
            have hn : (tl / 2) * 2 = tl := by omega
            calc ((tl / 2 : ℕ) : ℚ) * (2 ^ 1 * dt)
              = (((tl / 2) * 2 : ℕ) : ℚ) * dt := by push_cast; ring
            _ = (tl : ℚ) * dt := by rw [hn]
          rw [← hxv, hyv, hcast]
          apply mul_lt_mul_of_pos_right _ hdt
          exact_mod_cast (by omega : tl - 1 < tl)
    · show ((List.range tl).map (fun k : ℕ => (k : ℚ) * dt) ++
        upperTimes tl dt 1 ls.length).length =
        (lagEntries l ++ (ls.map (fun l2 => (lagEntries l2).drop (tl / 2))).flatten).length
      have hl0 := hwf l (by simp)
      have hent : ∀ l2 ∈ ls, ((lagEntries l2).drop (tl / 2)).length = tl - tl / 2 := by
        intro l2 h2
        obtain ⟨hs, hc⟩ := hwf l2 (by simp [h2])
        simp [lagEntries, List.length_drop, List.length_zipWith, hs, hc]
      have hflat : ((ls.map (fun l2 => (lagEntries l2).drop (tl / 2))).flatten).length =
          ls.length * (tl - tl / 2) := by
        rw [List.length_flatten, List.map_map]
        have hcongr : (ls.map (List.length ∘ fun l2 => (lagEntries l2).drop (tl / 2))) =
            ls.map (fun _ => tl - tl / 2) :=
          List.map_congr_left (fun l2 h2 => hent l2 h2)
        rw [hcongr, List.map_const', List.sum_replicate, smul_eq_mul]
      rw [List.length_append, List.length_append, hflat, upperTimes_length,
        List.length_map, List.length_range]
      simp [lagEntries, List.length_zipWith, hl0.1, hl0.2]

/-- Witness for C3: the lag-time theorem applied to a two-sample scalar run
with `tau_lin = 2`, `dt = 1` and two allowed levels. -/
theorem corr_lag_times_strict_mono_witness :
    (0 : ℚ) < 1 ∧ 2 % 2 = 0 ∧
    (List.Pairwise (· < ·) (lagTimesOf 2 1
        (runUpdates scalarProduct discard2 discard2 2 2 [([1], [1]), ([2], [2])])) ∧
      (lagTimesOf 2 1
        (runUpdates scalarProduct discard2 discard2 2 2 [([1], [1]), ([2], [2])])).length =
      (resultOf 2
        (runUpdates scalarProduct discard2 discard2 2 2 [([1], [1]), ([2], [2])])).length) :=
  ⟨by norm_num, by decide,
    corr_lag_times_strict_mono scalarProduct discard2 discard2 2 2 1
      (by norm_num) (by decide) [([1], [1]), ([2], [2])]⟩

/-! ## Correlator: `fcs_acf` squares its `args` at construction -/

/-- Counterexample to C6 as stated: with constructor args `(2, 2, 2)` the
stored `fcs_acf` denominators are `(4, 4, 4)`, not the supplied values — the
core squares `args` at construction (src docstring of `Correlator.args`)
rather than using them as-is. -/
theorem corr_fcs_args_counterexample :
    correlationArgs CorrOperation.fcs_acf (2, 2, 2) ≠ (2, 2, 2) := by
  simp only [correlationArgs, Prod.mk.injEq, not_and]
  norm_num

/-- C6 as amended: at construction with operation `fcs_acf` the correlator
squares the three supplied `args`, so the denominators of the exponent
`Σ (A_k - B_k)^2 / d_k` are the squares of the constructor-supplied values;
only values re-assigned later must be supplied pre-squared.  All other
operations leave `args` untouched. -/
theorem corr_fcs_args_squared (args a b : ℚ × ℚ × ℚ) :
    correlationArgs CorrOperation.fcs_acf args =
      (args.1 ^ 2, args.2.1 ^ 2, args.2.2 ^ 2) ∧
    fcsExponent (correlationArgs CorrOperation.fcs_acf args) a b =
      (a.1 - b.1) ^ 2 / args.1 ^ 2 + (a.2.1 - b.2.1) ^ 2 / args.2.1 ^ 2 +
        (a.2.2 - b.2.2) ^ 2 / args.2.2 ^ 2 ∧
    correlationArgs CorrOperation.scalar_product args = args := by
  refine ⟨?_, ?_, rfl⟩
  · simp [correlationArgs, sq]
  · simp [correlationArgs, fcsExponent, sq]

end Espresso
